import Mathlib

/-!
Shallow embedding of the `port_scanner` repository (file `src/lib.rs`),
with theorems checking the specification's claims about it.

Strings are embedded as `List Char`; Rust `u16` values as `Nat` with the
explicit bound 65535 where the code checks it; fallible operations return
`Option` or `Except String` (carrying the source's error messages verbatim).
Network effects (TCP connection attempts, DNS lookups) are embedded as
oracle parameters: a probe's attempt outcomes become a `Nat → Bool` stream,
a DNS lookup becomes the list of addresses it would return.
-/

namespace PortScanner

/-- Rust `char::is_whitespace` (the Unicode `White_Space` property), used by
`str::trim` inside `PortRange::from_str`. -/
def isWsChar (c : Char) : Bool :=
  c.toNat = 9 || c.toNat = 10 || c.toNat = 11 || c.toNat = 12 || c.toNat = 13 ||
  c.toNat = 32 || c.toNat = 133 || c.toNat = 160 || c.toNat = 5760 ||
  (8192 ≤ c.toNat && c.toNat ≤ 8202) || c.toNat = 8232 || c.toNat = 8233 ||
  c.toNat = 8239 || c.toNat = 8287 || c.toNat = 12288

/-- ASCII digit test, as used by Rust's integer parsing. -/
def isDigitChar (c : Char) : Bool := 48 ≤ c.toNat && c.toNat ≤ 57

/-- Numeric value of an ASCII digit. -/
def digitVal (c : Char) : Nat := c.toNat - 48

/-- Rust `str::trim`: strip leading and trailing whitespace. -/
def trim (cs : List Char) : List Char :=
  ((cs.dropWhile isWsChar).reverse.dropWhile isWsChar).reverse

/-- Embeds `s.split('-').collect::<Vec<_>>()` from `PortRange::from_str`: split on
every occurrence of the dash, keeping empty pieces (so `""` gives `[""]`
and `"a--b"` gives `["a", "", "b"]`), exactly as Rust's `str::split`. -/
def splitDash : List Char → List (List Char)
  | [] => [[]]
  | c :: cs =>
    if c = '-' then [] :: splitDash cs
    else
      match splitDash cs with
      | [] => [[c]]
      | p :: ps => (c :: p) :: ps

/-- The digit loop of Rust `u16::from_str`: every character must be an ASCII
digit and the accumulated value may never exceed `u16::MAX = 65535`
(checked multiplication/addition), otherwise parsing fails. -/
def parseDigits : List Char → Nat → Option Nat
  | [], acc => some acc
  | c :: cs, acc =>
    if isDigitChar c then
      let v := acc * 10 + digitVal c
      if v ≤ 65535 then parseDigits cs v else none
    else none

/-- Rust `str::parse::<u16>()`: an optional leading `+` sign followed by one
or more ASCII digits whose value fits in `u16`; anything else fails
(a `-` sign fails for an unsigned type, as does the empty string). -/
def parseU16 (cs : List Char) : Option Nat :=
  match cs with
  | [] => none
  | c :: rest =>
    if c = '+' then
      match rest with
      | [] => none
      | _ :: _ => parseDigits rest 0
    else parseDigits (c :: rest) 0

/-- Embeds `PortRange { start: u16, end: u16 }` from `src/lib.rs`. The source field
`end` is a Lean keyword; it is embedded here as `stop`. -/
structure PortRange where
  start : Nat
  stop : Nat
  deriving DecidableEq, Repr

/-- Embeds `PortRange::to_vec`: `(self.start..=self.end).collect()` — the ascending
list of ports from `start` to `end` inclusive. -/
def PortRange.to_vec (r : PortRange) : List Nat :=
  List.range' r.start (r.stop + 1 - r.start)

/-- Embeds `<PortRange as FromStr>::from_str`, with the source's error strings. -/
def PortRange.fromStr (s : List Char) : Except String PortRange :=
  let parts := splitDash s
  if parts.length ≠ 2 then
    .error "ports must be in format start-end (example: 1-1000)"
  else
    match parseU16 (trim parts[0]!) with
    | none => .error "start port must be a number"
    | some start =>
      match parseU16 (trim parts[1]!) with
      | none => .error "end port must be a number"
      | some stop =>
        if start = 0 || stop = 0 then
          .error "port range must be between 1 and 65535"
        else if start > stop then
          .error "start port must be <= end port"
        else
          .ok ⟨start, stop⟩

example : PortRange.fromStr "1-1000".data = .ok ⟨1, 1000⟩ := by rfl
example : (PortRange.fromStr "0-10".data).isOk = false := by rfl
example : PortRange.fromStr "1-70000".data = .error "end port must be a number" := by rfl
example : PortRange.fromStr " 1 - 100 ".data = .ok ⟨1, 100⟩ := by rfl

/-- Embeds `ScanResult { port: u16, open: bool }` from `src/lib.rs`. The source field
`open` is a Lean keyword; it is embedded here as `isOpen`. -/
structure ScanResult where
  port : Nat
  isOpen : Bool
  deriving DecidableEq, Repr

/-- The `for _ in 0..attempts` loop of `probe_port`. `cancelled k` is the value
the shared `AtomicBool` would show at its `k`-th load (load `0` happened before
the loop, so iteration `i` sees load `i + 1`); `connect i` tells whether the
`i`-th `TcpStream::connect_timeout` call succeeds. The pair returned is the
boolean result together with the total number of connection attempts made. -/
def probeLoop (cancelled connect : Nat → Bool) : Nat → Nat → Bool × Nat
  | 0, i => (false, i)
  | fuel + 1, i =>
    if cancelled (i + 1) then (false, i)
    else if connect i then (true, i + 1)
    else probeLoop cancelled connect fuel (i + 1)

/-- Embeds `probe_port(ip, port, timeout, retries, cancelled)`. The timeout only
bounds each attempt's duration, which the embedding abstracts; the connection
attempts become the oracle `connect`. `cancelled 0` models the load of the
flag performed before the loop; the loop runs `attempts = retries + 1` times.
The function is total: every failure mode yields `(false, _)`, never an
exception. The second component counts the connection attempts performed. -/
def probe_port (cancelled connect : Nat → Bool) (retries : Nat) : Bool × Nat :=
  if cancelled 0 then (false, 0)
  else probeLoop cancelled connect (retries + 1) 0

/-- One worker's task for a single port inside `scan_ip`: the parallel branch
checks the cancellation flag once more before calling `probe_port`, the
sequential branch calls `probe_port` directly; afterwards both branches do
`fetch_add(1)` on the progress counter when one was supplied. Returns the
`ScanResult`, the progress-counter increment, and the number of connection
attempts issued for this port. -/
def portTask (parallel hasProgress cancelled : Bool) (connect : Nat → Bool)
    (retries port : Nat) : ScanResult × Nat × Nat :=
  let pr : Bool × Nat :=
    if parallel then
      if cancelled then (false, 0)
      else probe_port (fun _ => cancelled) connect retries
    else probe_port (fun _ => cancelled) connect retries
  (⟨port, pr.1⟩, if hasProgress then 1 else 0, pr.2)

/-- Embeds `scan_ip(ip, ports, timeout, retries, parallel, threads, progress_counter,
cancelled)`. `timeout` and `threads` influence only timing and scheduling,
which the embedding abstracts away (rayon's ordered `collect` makes the
parallel map's output order equal to the input order, so both modes are the
same list-level `map`); `cancelled` is the constant value the shared flag
holds during the scan; `connect port i` tells whether the `i`-th connection
attempt to `port` would succeed; `hasProgress` says whether a progress counter
was supplied. Returns the result list (sorted by `sort_by_key(|r| r.port)`),
the total number of progress-counter increments, and the total number of
connection attempts issued. -/
def scan_ip (ports : List Nat) (timeout retries : Nat) (parallel : Bool)
    (threads : Nat) (hasProgress cancelled : Bool) (connect : Nat → Nat → Bool) :
    List ScanResult × Nat × Nat :=
  let tasks := ports.map fun port =>
    portTask parallel hasProgress cancelled (connect port) retries port
  (((tasks.map Prod.fst).mergeSort fun a b => a.port ≤ b.port),
    (tasks.map fun t => t.2.1).sum,
    (tasks.map fun t => t.2.2).sum)

/-- Embeds `std::net::IpAddr`: a v4 address (four octets) or a v6 address (eight
16-bit segments), with the components bounded as in the source type. -/
inductive IpAddr where
  | v4 (a b c d : Fin 256)
  | v6 (s1 s2 s3 s4 s5 s6 s7 s8 : Fin 65536)
  deriving DecidableEq, Repr

/-- The key realising `IpAddr`'s `Ord` instance from the Rust standard
library: every v4 address sorts before every v6 address, and within a variant
comparison is lexicographic on the components. -/
def IpAddr.key : IpAddr → Nat
  | .v4 a b c d => ((a.val * 256 + b.val) * 256 + c.val) * 256 + d.val
  | .v6 s1 s2 s3 s4 s5 s6 s7 s8 =>
    2 ^ 128 + (((((((s1.val * 65536 + s2.val) * 65536 + s3.val) * 65536
      + s4.val) * 65536 + s5.val) * 65536 + s6.val) * 65536 + s7.val) * 65536
      + s8.val)

/-- Insertion into the model of `std::collections::BTreeSet<IpAddr>`: the set
is kept as a strictly ascending list, and an element already present (an equal
key) is not inserted twice. -/
def btreeInsert (x : IpAddr) : List IpAddr → List IpAddr
  | [] => [x]
  | y :: ys =>
    if x.key < y.key then x :: y :: ys
    else if x.key = y.key then y :: ys
    else y :: btreeInsert x ys

/-- Embeds `resolve_target(target)`. The name lookup `(target, 0).to_socket_addrs()`
is embedded as the oracle `lookup`: `none` when the lookup itself fails,
`some addrs` for the addresses it returned, in lookup order. The `BTreeSet`
collection loop becomes a fold of sorted insertions, and `into_iter().collect()`
yields the set's ascending list. -/
def resolve_target (target : String) (lookup : Option (List IpAddr)) :
    Except String (List IpAddr) :=
  match lookup with
  | none => .error ("failed to resolve target '" ++ target ++ "'")
  | some addrs =>
    let ips := addrs.foldl (fun s a => btreeInsert a s) []
    if ips.isEmpty then
      .error ("no ip addresses found for target '" ++ target ++ "'")
    else
      .ok ips

/-! ### Facts about the numeric parsing model -/

/-- Folding the digits of `cs` onto the accumulator `acc`, most significant
digit first — the value computed by the loop of `u16::from_str`. -/
def digitFold (acc : Nat) (cs : List Char) : Nat :=
  cs.foldl (fun a c => a * 10 + digitVal c) acc

/-- A non-empty string of ASCII digits: the plain decimal numerals. -/
def isDigitStr (cs : List Char) : Bool := !cs.isEmpty && cs.all isDigitChar

/-- The numeric value denoted by a digit string. -/
def digitStrVal (cs : List Char) : Nat := digitFold 0 cs

theorem digitFold_cons (acc : Nat) (c : Char) (cs : List Char) :
    digitFold acc (c :: cs) = digitFold (acc * 10 + digitVal c) cs := rfl

theorem le_digitFold (cs : List Char) : ∀ acc : Nat, acc ≤ digitFold acc cs := by
  induction cs with
  | nil => intro acc; exact Nat.le_refl acc
  | cons c cs ih =>
    intro acc
    rw [digitFold_cons]
    exact Nat.le_trans (by omega) (ih (acc * 10 + digitVal c))

theorem parseDigits_eq_digitFold (cs : List Char) :
    ∀ acc : Nat, (∀ c ∈ cs, isDigitChar c = true) → digitFold acc cs ≤ 65535 →
      parseDigits cs acc = some (digitFold acc cs) := by
  induction cs with
  | nil => intro acc _ _; rfl
  | cons c cs ih =>
    intro acc hd hb
    have hc : isDigitChar c = true := hd c (List.mem_cons_self c cs)
    rw [digitFold_cons] at hb ⊢
    have hv : acc * 10 + digitVal c ≤ 65535 :=
      Nat.le_trans (le_digitFold cs (acc * 10 + digitVal c)) hb
    simp only [parseDigits, hc, if_true, hv, if_pos]
    exact ih (acc * 10 + digitVal c) (fun x hx => hd x (List.mem_cons_of_mem c hx)) hb

theorem parseDigits_some (cs : List Char) :
    ∀ acc n : Nat, parseDigits cs acc = some n →
      n = digitFold acc cs ∧ ∀ c ∈ cs, isDigitChar c = true := by
  induction cs with
  | nil =>
    intro acc n h
    refine ⟨(Option.some_inj.mp h).symm, by simp⟩
  | cons c cs ih =>
    intro acc n h
    simp only [parseDigits] at h
    by_cases hc : isDigitChar c = true
    · simp only [hc, if_true] at h
      by_cases hv : acc * 10 + digitVal c ≤ 65535
      · simp only [if_pos hv] at h
        obtain ⟨h1, h2⟩ := ih (acc * 10 + digitVal c) n h
        refine ⟨by rw [digitFold_cons]; exact h1, ?_⟩
        intro x hx
        rcases List.mem_cons.mp hx with hx | hx
        · exact hx ▸ hc
        · exact h2 x hx
      · simp [if_neg hv] at h
    · simp [hc] at h

theorem parseDigits_le (cs : List Char) :
    ∀ acc n : Nat, cs ≠ [] → parseDigits cs acc = some n → n ≤ 65535 := by
  induction cs with
  | nil => intro _ _ h; exact absurd rfl h
  | cons c cs ih =>
    intro acc n _ h
    simp only [parseDigits] at h
    by_cases hc : isDigitChar c = true
    · simp only [hc, if_true] at h
      by_cases hv : acc * 10 + digitVal c ≤ 65535
      · simp only [if_pos hv] at h
        cases cs with
        | nil =>
          have : acc * 10 + digitVal c = n := Option.some_inj.mp h
          omega
        | cons d ds => exact ih (acc * 10 + digitVal c) n (by simp) h
      · simp [if_neg hv] at h
    · simp [hc] at h

theorem not_plus_of_digit {c : Char} (h : isDigitChar c = true) : c ≠ '+' := by
  intro he
  rw [he] at h
  exact absurd h (by decide)

theorem not_dash_of_digit {c : Char} (h : isDigitChar c = true) : c ≠ '-' := by
  intro he
  rw [he] at h
  exact absurd h (by decide)

theorem not_dash_of_ws {c : Char} (h : isWsChar c = true) : c ≠ '-' := by
  intro he
  rw [he] at h
  exact absurd h (by decide)

theorem not_ws_of_digit {c : Char} (h : isDigitChar c = true) : isWsChar c = false := by
  cases hw : isWsChar c with
  | false => rfl
  | true =>
    exfalso
    simp only [isDigitChar, Bool.and_eq_true, decide_eq_true_eq] at h
    simp only [isWsChar, Bool.or_eq_true, Bool.and_eq_true, decide_eq_true_eq] at hw
    omega

theorem isDigitStr_iff {cs : List Char} :
    isDigitStr cs = true ↔ cs ≠ [] ∧ ∀ c ∈ cs, isDigitChar c = true := by
  simp [isDigitStr, List.isEmpty_iff, List.all_eq_true]

theorem parseU16_digitStr {cs : List Char} (h : isDigitStr cs = true)
    (hb : digitStrVal cs ≤ 65535) : parseU16 cs = some (digitStrVal cs) := by
  obtain ⟨hne, hd⟩ := isDigitStr_iff.mp h
  cases cs with
  | nil => exact absurd rfl hne
  | cons c rest =>
    have hc : isDigitChar c = true := hd c (List.mem_cons_self c rest)
    simp only [parseU16, if_neg (not_plus_of_digit hc)]
    exact parseDigits_eq_digitFold (c :: rest) 0 hd hb

theorem parseU16_overflow {cs : List Char} (h : isDigitStr cs = true)
    (hb : 65535 < digitStrVal cs) : parseU16 cs = none := by
  obtain ⟨hne, hd⟩ := isDigitStr_iff.mp h
  cases cs with
  | nil => exact absurd rfl hne
  | cons c rest =>
    have hc : isDigitChar c = true := hd c (List.mem_cons_self c rest)
    simp only [parseU16, if_neg (not_plus_of_digit hc)]
    cases hp : parseDigits (c :: rest) 0 with
    | none => rfl
    | some n =>
      exfalso
      have h1 := (parseDigits_some (c :: rest) 0 n hp).1
      have h2 := parseDigits_le (c :: rest) 0 n (by simp) hp
      rw [h1] at h2
      exact absurd hb (by rw [digitStrVal]; omega)

/-! ### Facts about splitting and trimming -/

theorem splitDash_append_cons {s1 : List Char} (s2 : List Char) (h : '-' ∉ s1) :
    splitDash (s1 ++ '-' :: s2) = s1 :: splitDash s2 := by
  induction s1 with
  | nil => simp [splitDash]
  | cons c cs ih =>
    have hc : ¬(c = '-') := fun he => h (he ▸ List.mem_cons_self c cs)
    have ih2 := ih (fun hm => h (List.mem_cons_of_mem c hm))
    simp only [List.cons_append, splitDash, if_neg hc, List.append_eq, ih2]

theorem splitDash_no_dash {s : List Char} (h : '-' ∉ s) : splitDash s = [s] := by
  induction s with
  | nil => rfl
  | cons c cs ih =>
    have hc : ¬(c = '-') := fun he => h (he ▸ List.mem_cons_self c cs)
    have ih2 := ih (fun hm => h (List.mem_cons_of_mem c hm))
    simp only [splitDash, if_neg hc, ih2]

theorem dropWhile_eq_self_of_all {p : Char → Bool} {l : List Char}
    (h : ∀ c ∈ l, p c = false) : l.dropWhile p = l := by
  cases l with
  | nil => rfl
  | cons c cs =>
    have hc : ¬(p c = true) := by
      rw [h c (List.mem_cons_self c cs)]; exact Bool.false_ne_true
    exact List.dropWhile_cons_of_neg hc

theorem trim_eq_self_of_digits {cs : List Char}
    (h : ∀ c ∈ cs, isDigitChar c = true) : trim cs = cs := by
  have hnw : ∀ c ∈ cs, isWsChar c = false := fun c hc => not_ws_of_digit (h c hc)
  unfold trim
  rw [dropWhile_eq_self_of_all hnw,
    dropWhile_eq_self_of_all (fun c hc => hnw c (List.mem_reverse.mp hc)),
    List.reverse_reverse]

theorem trim_pad {w1 w2 s : List Char} (hw1 : ∀ c ∈ w1, isWsChar c = true)
    (hw2 : ∀ c ∈ w2, isWsChar c = true) (hs : isDigitStr s = true) :
    trim (w1 ++ s ++ w2) = s := by
  obtain ⟨hne, hd⟩ := isDigitStr_iff.mp hs
  have hnw : ∀ c ∈ s, isWsChar c = false := fun c hc => not_ws_of_digit (hd c hc)
  unfold trim
  rw [List.append_assoc, List.dropWhile_append_of_pos hw1]
  have h1 : (s ++ w2).dropWhile isWsChar = s ++ w2 := by
    cases s with
    | nil => exact absurd rfl hne
    | cons c cs =>
      refine List.dropWhile_cons_of_neg ?_
      rw [hnw c (List.mem_cons_self c cs)]
      exact Bool.false_ne_true
  rw [h1, List.reverse_append, List.dropWhile_append_of_pos
    (fun c hc => hw2 c (List.mem_reverse.mp hc)),
    dropWhile_eq_self_of_all (fun c hc => hnw c (List.mem_reverse.mp hc)),
    List.reverse_reverse]

/-- Evaluation of `PortRange::from_str` on a two-part input: once the split
on the dash is known, the parser reduces to trimming and numeric parsing of
the two sides followed by the bound checks. -/
theorem fromStr_two_parts {s1 s2 : List Char} (h1 : '-' ∉ s1) (h2 : '-' ∉ s2) :
    PortRange.fromStr (s1 ++ '-' :: s2) =
      match parseU16 (trim s1) with
      | none => .error "start port must be a number"
      | some start =>
        match parseU16 (trim s2) with
        | none => .error "end port must be a number"
        | some stop =>
          if start = 0 || stop = 0 then
            .error "port range must be between 1 and 65535"
          else if start > stop then
            .error "start port must be <= end port"
          else
            .ok ⟨start, stop⟩ := by
  unfold PortRange.fromStr
  rw [splitDash_append_cons s2 h1, splitDash_no_dash h2]
  rfl

theorem no_dash_of_digitStr {s : List Char} (h : isDigitStr s = true) : '-' ∉ s := by
  intro hm
  exact not_dash_of_digit ((isDigitStr_iff.mp h).2 '-' hm) rfl

/-- Parsing succeeds on a dash-joined pair of decimal numerals whose values
`a`, `b` satisfy `1 ≤ a ≤ b ≤ 65535`. -/
theorem fromStr_ok_of_valid {s1 s2 : List Char} {a b : Nat}
    (h1 : isDigitStr s1 = true) (h2 : isDigitStr s2 = true)
    (hv1 : digitStrVal s1 = a) (hv2 : digitStrVal s2 = b)
    (ha : 1 ≤ a) (hab : a ≤ b) (hb : b ≤ 65535) :
    PortRange.fromStr (s1 ++ '-' :: s2) = .ok ⟨a, b⟩ := by
  rw [fromStr_two_parts (no_dash_of_digitStr h1) (no_dash_of_digitStr h2),
    trim_eq_self_of_digits (isDigitStr_iff.mp h1).2,
    trim_eq_self_of_digits (isDigitStr_iff.mp h2).2,
    parseU16_digitStr h1 (by omega), parseU16_digitStr h2 (by omega), hv1, hv2]
  have hz : (a = 0 || b = 0) = false := by
    simp only [Bool.or_eq_false_iff, decide_eq_false_iff_not]
    omega
  simp only [hz, Bool.false_eq_true, if_false, if_neg (by omega : ¬a > b)]

/-- C4: for every string of the form `start-end` whose two sides are decimal
numerals denoting `a` and `b` with `1 ≤ a ≤ b ≤ 65535`, parsing succeeds with
`PortRange { start := a, end := b }`, and expanding that range yields a list of
length `b - a + 1` that is strictly ascending with first element `a` and last
element `b`. -/
theorem claim_C4_parse_roundtrip (s1 s2 : List Char) (a b : Nat)
    (h1 : isDigitStr s1 = true) (h2 : isDigitStr s2 = true)
    (hv1 : digitStrVal s1 = a) (hv2 : digitStrVal s2 = b)
    (ha : 1 ≤ a) (hab : a ≤ b) (hb : b ≤ 65535) :
    PortRange.fromStr (s1 ++ '-' :: s2) = .ok ⟨a, b⟩ ∧
    (PortRange.to_vec ⟨a, b⟩).length = b - a + 1 ∧
    (PortRange.to_vec ⟨a, b⟩).Pairwise (· < ·) ∧
    (PortRange.to_vec ⟨a, b⟩).head? = some a ∧
    (PortRange.to_vec ⟨a, b⟩).getLast? = some b := by
  have hpad : PortRange.fromStr (s1 ++ '-' :: s2) = .ok ⟨a, b⟩ :=
    fromStr_ok_of_valid h1 h2 hv1 hv2 ha hab hb
  have hvec : PortRange.to_vec ⟨a, b⟩ = List.range' a (b + 1 - a) := rfl
  have hn : b + 1 - a = b - a + 1 := by omega
  refine ⟨hpad, ?_, ?_, ?_, ?_⟩
  · rw [hvec, List.length_range']
    exact hn
  · rw [hvec]
    exact List.pairwise_lt_range' a (b + 1 - a) 1 (by omega)
  · rw [hvec, hn, List.range'_succ]
    rfl
  · have hne : List.range' a (b + 1 - a) ≠ [] := by
      intro he
      have hl := List.length_range' a 1 (b + 1 - a)
      rw [he] at hl
      simp at hl
      omega
    rw [hvec, List.getLast?_eq_getLast _ hne, List.getLast_range' (b + 1 - a) hne]
    congr 1
    omega

/-- C4 witness: the concrete range string `2-5`. -/
theorem claim_C4_parse_roundtrip_witness :
    PortRange.fromStr ("2".data ++ '-' :: "5".data) = .ok ⟨2, 5⟩ ∧
    (PortRange.to_vec ⟨2, 5⟩).length = 5 - 2 + 1 ∧
    (PortRange.to_vec ⟨2, 5⟩).Pairwise (· < ·) ∧
    (PortRange.to_vec ⟨2, 5⟩).head? = some 2 ∧
    (PortRange.to_vec ⟨2, 5⟩).getLast? = some 5 :=
  claim_C4_parse_roundtrip "2".data "5".data 2 5 (by decide) (by decide) rfl rfl
    (by decide) (by decide) (by decide)

/-- C8: each of the strings `0-10`, `1-0`, `100-1`, `abc-10`, `10` and
`10-20-30` is rejected by `PortRange` parsing with a `ParseError` (the listed
error messages are the ones the source returns); the embedded parser is a
total function, so none of the inputs can make it panic. -/
theorem claim_C8_parse_rejections :
    PortRange.fromStr "0-10".data = .error "port range must be between 1 and 65535" ∧
    PortRange.fromStr "1-0".data = .error "port range must be between 1 and 65535" ∧
    PortRange.fromStr "100-1".data = .error "start port must be <= end port" ∧
    PortRange.fromStr "abc-10".data = .error "start port must be a number" ∧
    PortRange.fromStr "10".data = .error "ports must be in format start-end (example: 1-1000)" ∧
    PortRange.fromStr "10-20-30".data = .error "ports must be in format start-end (example: 1-1000)" :=
  ⟨rfl, rfl, rfl, rfl, rfl, rfl⟩

/-- C9 counterexample: on `1-70000` the parser fails while reading `70000` as
a `u16`, so the error is `end port must be a number`, not the claimed
`port range must be between 1 and 65535` bound-check message. -/
theorem claim_C9_counterexample :
    PortRange.fromStr "1-70000".data = .error "end port must be a number" ∧
    ¬PortRange.fromStr "1-70000".data = .error "port range must be between 1 and 65535" := by
  refine ⟨rfl, ?_⟩
  intro h
  have h1 : PortRange.fromStr "1-70000".data =
      Except.error "end port must be a number" := rfl
  rw [h1] at h
  exact absurd (Except.error.inj h) (by decide)

/-- C9 amended: the `port range must be between 1 and 65535` message appears
exactly when both sides parse as `u16` and one of them is zero; a side whose
value exceeds 65535 fails the numeric parse first, giving
`start port must be a number` or `end port must be a number`. -/
theorem claim_C9_amended_bounds :
    (∀ s1 s2 a b, isDigitStr s1 = true → isDigitStr s2 = true →
      digitStrVal s1 = a → digitStrVal s2 = b → a ≤ 65535 → b ≤ 65535 →
      (a = 0 ∨ b = 0) →
      PortRange.fromStr (s1 ++ '-' :: s2) =
        .error "port range must be between 1 and 65535") ∧
    (∀ s1 s2, isDigitStr s1 = true → isDigitStr s2 = true →
      digitStrVal s1 ≤ 65535 → 65535 < digitStrVal s2 →
      PortRange.fromStr (s1 ++ '-' :: s2) = .error "end port must be a number") ∧
    (∀ s1 s2, isDigitStr s1 = true → isDigitStr s2 = true →
      65535 < digitStrVal s1 →
      PortRange.fromStr (s1 ++ '-' :: s2) = .error "start port must be a number") := by
  refine ⟨?_, ?_, ?_⟩
  · intro s1 s2 a b h1 h2 hv1 hv2 ha hb hz
    rw [fromStr_two_parts (no_dash_of_digitStr h1) (no_dash_of_digitStr h2),
      trim_eq_self_of_digits (isDigitStr_iff.mp h1).2,
      trim_eq_self_of_digits (isDigitStr_iff.mp h2).2,
      parseU16_digitStr h1 (by omega), parseU16_digitStr h2 (by omega), hv1, hv2]
    have hz2 : (a = 0 || b = 0) = true := by
      rcases hz with hz | hz <;> simp [hz]
    simp only [hz2, if_true]
  · intro s1 s2 h1 h2 hb1 hb2
    rw [fromStr_two_parts (no_dash_of_digitStr h1) (no_dash_of_digitStr h2),
      trim_eq_self_of_digits (isDigitStr_iff.mp h1).2,
      trim_eq_self_of_digits (isDigitStr_iff.mp h2).2,
      parseU16_digitStr h1 hb1, parseU16_overflow h2 hb2]
  · intro s1 s2 h1 h2 hb1
    rw [fromStr_two_parts (no_dash_of_digitStr h1) (no_dash_of_digitStr h2),
      trim_eq_self_of_digits (isDigitStr_iff.mp h1).2,
      trim_eq_self_of_digits (isDigitStr_iff.mp h2).2,
      parseU16_overflow h1 hb1]

/-- C9 amended witness: `0-10` hits the bound-check message, `1-70000` and
`70000-1` hit the numeric-parse messages. -/
theorem claim_C9_amended_bounds_witness :
    PortRange.fromStr ("0".data ++ '-' :: "10".data) =
      .error "port range must be between 1 and 65535" ∧
    PortRange.fromStr ("1".data ++ '-' :: "70000".data) =
      .error "end port must be a number" ∧
    PortRange.fromStr ("70000".data ++ '-' :: "1".data) =
      .error "start port must be a number" :=
  ⟨claim_C9_amended_bounds.1 "0".data "10".data 0 10 (by decide) (by decide) rfl rfl
      (by decide) (by decide) (Or.inl rfl),
    claim_C9_amended_bounds.2.1 "1".data "70000".data (by decide) (by decide)
      (by decide) (by decide),
    claim_C9_amended_bounds.2.2 "70000".data "1".data (by decide) (by decide)
      (by decide)⟩

theorem no_dash_of_pad {w1 w2 s : List Char} (hw1 : ∀ c ∈ w1, isWsChar c = true)
    (hw2 : ∀ c ∈ w2, isWsChar c = true) (hs : isDigitStr s = true) :
    '-' ∉ w1 ++ s ++ w2 := by
  intro hm
  rcases List.mem_append.mp hm with hm | hm
  · rcases List.mem_append.mp hm with hm | hm
    · exact not_dash_of_ws (hw1 '-' hm) rfl
    · exact no_dash_of_digitStr hs hm
  · exact not_dash_of_ws (hw2 '-' hm) rfl

/-- C10: `PortRange::from_str` trims whitespace around each side of the dash
before parsing it, so a numeral pair padded with whitespace parses exactly as
the unpadded pair does — and in particular, for values `1 ≤ a ≤ b ≤ 65535`
the padded string parses successfully to the same `PortRange`. -/
theorem claim_C10_whitespace_trimmed (w1 w2 w3 w4 s1 s2 : List Char)
    (hw1 : ∀ c ∈ w1, isWsChar c = true) (hw2 : ∀ c ∈ w2, isWsChar c = true)
    (hw3 : ∀ c ∈ w3, isWsChar c = true) (hw4 : ∀ c ∈ w4, isWsChar c = true)
    (h1 : isDigitStr s1 = true) (h2 : isDigitStr s2 = true) :
    PortRange.fromStr ((w1 ++ s1 ++ w2) ++ '-' :: (w3 ++ s2 ++ w4)) =
      PortRange.fromStr (s1 ++ '-' :: s2) ∧
    (1 ≤ digitStrVal s1 → digitStrVal s1 ≤ digitStrVal s2 →
      digitStrVal s2 ≤ 65535 →
      PortRange.fromStr ((w1 ++ s1 ++ w2) ++ '-' :: (w3 ++ s2 ++ w4)) =
        .ok ⟨digitStrVal s1, digitStrVal s2⟩) := by
  have heq : PortRange.fromStr ((w1 ++ s1 ++ w2) ++ '-' :: (w3 ++ s2 ++ w4)) =
      PortRange.fromStr (s1 ++ '-' :: s2) := by
    rw [fromStr_two_parts (no_dash_of_pad hw1 hw2 h1) (no_dash_of_pad hw3 hw4 h2),
      fromStr_two_parts (no_dash_of_digitStr h1) (no_dash_of_digitStr h2),
      trim_pad hw1 hw2 h1, trim_pad hw3 hw4 h2,
      trim_eq_self_of_digits (isDigitStr_iff.mp h1).2,
      trim_eq_self_of_digits (isDigitStr_iff.mp h2).2]
  refine ⟨heq, fun ha hab hb => ?_⟩
  rw [heq]
  exact fromStr_ok_of_valid h1 h2 rfl rfl ha hab hb

/-- C10 witness: `" 1 - 100 "` parses exactly as `"1-100"` does, namely to
the range `1..=100`. -/
theorem claim_C10_whitespace_trimmed_witness :
    PortRange.fromStr ((" ".data ++ "1".data ++ " ".data) ++
        '-' :: (" ".data ++ "100".data ++ " ".data)) =
      PortRange.fromStr ("1".data ++ '-' :: "100".data) ∧
    PortRange.fromStr ((" ".data ++ "1".data ++ " ".data) ++
        '-' :: (" ".data ++ "100".data ++ " ".data)) = .ok ⟨1, 100⟩ := by
  have h := claim_C10_whitespace_trimmed " ".data " ".data " ".data " ".data
    "1".data "100".data (by decide) (by decide) (by decide) (by decide)
    (by decide) (by decide)
  exact ⟨h.1, h.2 (by decide) (by decide) (by decide)⟩

/-! ### Facts about the probe loop -/

theorem probeLoop_all_fail (cancelled connect : Nat → Bool)
    (hc : ∀ k, cancelled k = false) :
    ∀ fuel i : Nat, (∀ k, k < i + fuel → connect k = false) →
      probeLoop cancelled connect fuel i = (false, i + fuel) := by
  intro fuel
  induction fuel with
  | zero => intro i _; simp [probeLoop]
  | succ fuel ih =>
    intro i h
    have h1 := hc (i + 1)
    have h2 := h i (by omega)
    simp only [probeLoop, h1, Bool.false_eq_true, if_false, h2]
    rw [ih (i + 1) (fun k hk => h k (by omega))]
    congr 1
    omega

theorem probeLoop_first_success (cancelled connect : Nat → Bool)
    (hc : ∀ k, cancelled k = false) :
    ∀ fuel i j : Nat, i ≤ j → j < i + fuel → connect j = true →
      (∀ k, k < j → connect k = false) →
      probeLoop cancelled connect fuel i = (true, j + 1) := by
  intro fuel
  induction fuel with
  | zero => intro i j _ _ _ _; omega
  | succ fuel ih =>
    intro i j hij hj hcj hbefore
    have h1 := hc (i + 1)
    rcases Nat.eq_or_lt_of_le hij with heq | hlt
    · subst heq
      simp only [probeLoop, h1, Bool.false_eq_true, if_false, hcj, if_true]
    · have h2 : connect i = false := hbefore i hlt
      simp only [probeLoop, h1, Bool.false_eq_true, if_false, h2]
      exact ih (i + 1) j hlt (by omega) hcj hbefore

/-- C2: when the cancellation flag is never set, `probe_port` (a total
function — every failure collapses to `false`, nothing is raised) performs
exactly `retries + 1` connection attempts and returns `false` when every
attempt fails, and returns `true` as soon as an attempt succeeds: if the
first success is attempt `j`, exactly `j + 1` attempts are made. -/
theorem claim_C2_probe_retries (cancelled connect : Nat → Bool) (retries : Nat)
    (hc : ∀ k, cancelled k = false) :
    ((∀ i, i < retries + 1 → connect i = false) →
      probe_port cancelled connect retries = (false, retries + 1)) ∧
    (∀ j, j ≤ retries → connect j = true → (∀ i, i < j → connect i = false) →
      probe_port cancelled connect retries = (true, j + 1)) := by
  constructor
  · intro h
    rw [probe_port, hc 0]
    simp only [Bool.false_eq_true, if_false]
    have := probeLoop_all_fail cancelled connect hc (retries + 1) 0
      (fun k hk => h k (by omega))
    rw [this]
    congr 1
    omega
  · intro j hj hcj hbefore
    rw [probe_port, hc 0]
    simp only [Bool.false_eq_true, if_false]
    exact probeLoop_first_success cancelled connect hc (retries + 1) 0 j
      (by omega) (by omega) hcj hbefore

/-- C2 witness: with 2 retries and every attempt refused, 3 attempts are made
and the result is `false`; with the first attempt succeeding, 1 attempt is
made and the result is `true`. -/
theorem claim_C2_probe_retries_witness :
    probe_port (fun _ => false) (fun _ => false) 2 = (false, 3) ∧
    probe_port (fun _ => false) (fun _ => true) 2 = (true, 1) :=
  ⟨(claim_C2_probe_retries (fun _ => false) (fun _ => false) 2 (fun _ => rfl)).1
      (fun _ _ => rfl),
    (claim_C2_probe_retries (fun _ => false) (fun _ => true) 2 (fun _ => rfl)).2
      0 (by omega) rfl (fun i hi => absurd hi (by omega))⟩

/-! ### Facts about the scan engine -/

theorem portTask_cancelled (parallel hasProgress : Bool) (connect : Nat → Bool)
    (retries port : Nat) :
    portTask parallel hasProgress true connect retries port =
      (⟨port, false⟩, (if hasProgress then 1 else 0), 0) := by
  cases parallel <;> simp [portTask, probe_port]

theorem portTask_fst_port (parallel hasProgress cancelled : Bool)
    (connect : Nat → Bool) (retries port : Nat) :
    (portTask parallel hasProgress cancelled connect retries port).1.port = port := rfl

/-- C3: if the cancellation flag is set for the whole scan, every result
`scan_ip` returns has `open = false` — in sequential and in parallel mode
alike — and the total number of connection attempts issued is zero. -/
theorem claim_C3_cancelled_before_scan (ports : List Nat) (timeout retries : Nat)
    (parallel : Bool) (threads : Nat) (hasProgress : Bool)
    (connect : Nat → Nat → Bool) :
    (∀ r ∈ (scan_ip ports timeout retries parallel threads hasProgress true connect).1,
      r.isOpen = false) ∧
    (scan_ip ports timeout retries parallel threads hasProgress true connect).2.2 = 0 := by
  constructor
  · intro r hr
    rw [scan_ip] at hr
    simp only at hr
    have hr2 := (List.mergeSort_perm _ _).mem_iff.mp hr
    simp only [List.map_map] at hr2
    obtain ⟨p, _, hp⟩ := List.mem_map.mp hr2
    rw [Function.comp_apply, portTask_cancelled] at hp
    rw [← hp]
  · rw [scan_ip]
    simp only [List.map_map]
    apply List.sum_eq_zero
    intro x hx
    obtain ⟨p, _, hp⟩ := List.mem_map.mp hx
    rw [← hp, Function.comp_apply, portTask_cancelled]

/-- C3 witness: a parallel scan of port 80 with the flag set yields the single
closed result, and issues no connection attempt. -/
theorem claim_C3_cancelled_before_scan_witness :
    (⟨80, false⟩ : ScanResult) ∈
      (scan_ip [80] 5 2 true 4 true true (fun _ _ => true)).1 ∧
    ScanResult.isOpen ⟨80, false⟩ = false ∧
    (scan_ip [80] 5 2 true 4 true true (fun _ _ => true)).2.2 = 0 := by
  have hmem : (⟨80, false⟩ : ScanResult) ∈
      (scan_ip [80] 5 2 true 4 true true (fun _ _ => true)).1 := by
    simp [scan_ip, portTask, probe_port]
  exact ⟨hmem,
    (claim_C3_cancelled_before_scan [80] 5 2 true 4 true (fun _ _ => true)).1 _ hmem,
    (claim_C3_cancelled_before_scan [80] 5 2 true 4 true (fun _ _ => true)).2⟩

theorem mergeSort_by_port_sorted (l : List ScanResult) :
    (l.mergeSort fun a b => a.port ≤ b.port).Pairwise fun a b => a.port ≤ b.port := by
  have h : (l.mergeSort fun a b => a.port ≤ b.port).Pairwise
      (fun a b : ScanResult => decide (a.port ≤ b.port) = true) :=
    List.sorted_mergeSort
      (fun a b c hab hbc => by
        simp only [decide_eq_true_eq] at hab hbc ⊢
        omega)
      (fun a b => by
        simp only [Bool.or_eq_true, decide_eq_true_eq]
        omega)
      l
  exact h.imp fun hab => by simpa using hab

/-- C1: for every address (absorbed in the `connect` oracle), port list,
timeout, retry count, mode, worker count, progress-counter presence and flag
state, `scan_ip` returns exactly one `ScanResult` per entry of the port list
(the result ports are a permutation of the input ports, and lengths agree)
and the list is sorted ascending by port number. -/
theorem claim_C1_one_result_per_port_sorted (ports : List Nat)
    (timeout retries : Nat) (parallel : Bool) (threads : Nat)
    (hasProgress cancelled : Bool) (connect : Nat → Nat → Bool) :
    ((scan_ip ports timeout retries parallel threads hasProgress cancelled
        connect).1.map ScanResult.port).Perm ports ∧
    (scan_ip ports timeout retries parallel threads hasProgress cancelled
        connect).1.length = ports.length ∧
    (scan_ip ports timeout retries parallel threads hasProgress cancelled
        connect).1.Pairwise fun a b => a.port ≤ b.port := by
  rw [scan_ip]
  simp only
  set f := fun port =>
    (portTask parallel hasProgress cancelled (connect port) retries port).1 with hf
  have hcomp : (ports.map fun port =>
      portTask parallel hasProgress cancelled (connect port) retries port).map
        Prod.fst = ports.map f := by
    rw [List.map_map]
    rfl
  have hports : (ports.map f).map ScanResult.port = ports := by
    rw [List.map_map]
    have : (ScanResult.port ∘ f) = id := funext fun p =>
      portTask_fst_port parallel hasProgress cancelled (connect p) retries p
    rw [this, List.map_id]
  rw [hcomp]
  have hperm := List.mergeSort_perm (ports.map f)
    (fun a b => decide (a.port ≤ b.port))
  refine ⟨?_, ?_, mergeSort_by_port_sorted (ports.map f)⟩
  · have h1 := hperm.map ScanResult.port
    rwa [hports] at h1
  · rw [hperm.length_eq, List.length_map]

theorem portTask_not_cancelled (parallel hasProgress : Bool)
    (connect : Nat → Bool) (retries port : Nat) :
    portTask parallel hasProgress false connect retries port =
      (⟨port, (probe_port (fun _ => false) connect retries).1⟩,
        (if hasProgress then 1 else 0),
        (probe_port (fun _ => false) connect retries).2) := by
  cases parallel <;> simp [portTask]

/-- C5: with the cancellation flag unset and the same per-port probe outcomes,
sequential and parallel `scan_ip` return equal result lists (whatever the
timeouts, worker counts and progress settings of the two runs), each result's
`open` equals its port's probe outcome, and the list is sorted ascending by
port. -/
theorem claim_C5_seq_par_equal (ports : List Nat) (timeout timeout2 retries : Nat)
    (threads threads2 : Nat) (hasProgress hasProgress2 : Bool)
    (connect : Nat → Nat → Bool) :
    (scan_ip ports timeout retries false threads hasProgress false connect).1 =
      (scan_ip ports timeout2 retries true threads2 hasProgress2 false connect).1 ∧
    (∀ r ∈ (scan_ip ports timeout retries false threads hasProgress false connect).1,
      r.isOpen = (probe_port (fun _ => false) (connect r.port) retries).1) ∧
    (scan_ip ports timeout retries false threads hasProgress false connect).1.Pairwise
      fun a b => a.port ≤ b.port := by
  have hfst : ∀ (par hp : Bool) (p : Nat),
      (portTask par hp false (connect p) retries p).1 =
        ⟨p, (probe_port (fun _ => false) (connect p) retries).1⟩ := by
    intro par hp p
    rw [portTask_not_cancelled]
  have hmap : ∀ (par hp : Bool), (ports.map fun port =>
      portTask par hp false (connect port) retries port).map Prod.fst =
        ports.map fun p =>
          (⟨p, (probe_port (fun _ => false) (connect p) retries).1⟩ : ScanResult) := by
    intro par hp
    rw [List.map_map]
    exact List.map_congr_left fun p _ => hfst par hp p
  refine ⟨?_, ?_, ?_⟩
  · rw [scan_ip, scan_ip]
    simp only
    rw [hmap false hasProgress, hmap true hasProgress2]
  · intro r hr
    rw [scan_ip] at hr
    simp only at hr
    rw [hmap false hasProgress] at hr
    have hr2 := (List.mergeSort_perm _ _).mem_iff.mp hr
    obtain ⟨p, _, hp⟩ := List.mem_map.mp hr2
    rw [← hp]
  · rw [scan_ip]
    simp only
    rw [hmap false hasProgress]
    exact mergeSort_by_port_sorted _

/-- C5 witness: one open port (22) and one closed port (80), scanned in both
modes. -/
theorem claim_C5_seq_par_equal_witness :
    (scan_ip [22] 5 0 false 1 true false (fun _ _ => true)).1 =
      (scan_ip [22] 7 0 true 8 false false (fun _ _ => true)).1 ∧
    (⟨22, true⟩ : ScanResult) ∈
      (scan_ip [22] 5 0 false 1 true false (fun _ _ => true)).1 ∧
    ScanResult.isOpen ⟨22, true⟩ =
      (probe_port (fun _ => false) ((fun _ _ => true) 0 : Nat → Bool) 0).1 ∧
    (scan_ip [22] 5 0 false 1 true false (fun _ _ => true)).1.Pairwise
      (fun a b => a.port ≤ b.port) := by
  have h := claim_C5_seq_par_equal [22] 5 7 0 1 8 true false (fun _ _ => true)
  have hmem : (⟨22, true⟩ : ScanResult) ∈
      (scan_ip [22] 5 0 false 1 true false (fun _ _ => true)).1 := by
    simp [scan_ip, portTask, probe_port, probeLoop]
  exact ⟨h.1, hmem, h.2.1 ⟨22, true⟩ hmem, h.2.2⟩

theorem sum_map_one {α : Type} (l : List α) :
    (l.map fun _ => (1 : Nat)).sum = l.length := by
  induction l with
  | nil => rfl
  | cons a l ih => simp [ih, Nat.add_comm]

/-- C7: when a progress counter is supplied, one `scan_ip` call over a port
list of length `L` increments it exactly `L` times — once per port, whatever
the probe outcomes, the mode, and the cancellation-flag state (cancelled
no-ops included). -/
theorem claim_C7_progress_increments (ports : List Nat) (timeout retries : Nat)
    (parallel : Bool) (threads : Nat) (cancelled : Bool)
    (connect : Nat → Nat → Bool) :
    (scan_ip ports timeout retries parallel threads true cancelled connect).2.1 =
      ports.length := by
  rw [scan_ip]
  simp only [List.map_map]
  have : ((fun t : ScanResult × Nat × Nat => t.2.1) ∘ fun port =>
      portTask parallel true cancelled (connect port) retries port) =
        fun _ => (1 : Nat) := by
    funext p
    rfl
  rw [this, sum_map_one]

/-! ### Facts about the resolver model -/

theorem IpAddr.key_inj : ∀ {x y : IpAddr}, x.key = y.key → x = y := by
  intro x y h
  cases x with
  | v4 a b c d =>
    cases y with
    | v4 a2 b2 c2 d2 =>
      simp only [IpAddr.key] at h
      have ha := a.isLt
      have hb := b.isLt
      have hc := c.isLt
      have hd := d.isLt
      have ha2 := a2.isLt
      have hb2 := b2.isLt
      have hc2 := c2.isLt
      have hd2 := d2.isLt
      have : a.val = a2.val ∧ b.val = b2.val ∧ c.val = c2.val ∧ d.val = d2.val := by
        omega
      obtain ⟨e1, e2, e3, e4⟩ := this
      rw [Fin.ext e1, Fin.ext e2, Fin.ext e3, Fin.ext e4]
    | v6 s1 s2 s3 s4 s5 s6 s7 s8 =>
      exfalso
      simp only [IpAddr.key] at h
      have ha := a.isLt
      have hb := b.isLt
      have hc := c.isLt
      have hd := d.isLt
      omega
  | v6 s1 s2 s3 s4 s5 s6 s7 s8 =>
    cases y with
    | v4 a b c d =>
      exfalso
      simp only [IpAddr.key] at h
      have ha := a.isLt
      have hb := b.isLt
      have hc := c.isLt
      have hd := d.isLt
      omega
    | v6 t1 t2 t3 t4 t5 t6 t7 t8 =>
      simp only [IpAddr.key] at h
      have h1 := s1.isLt
      have h2 := s2.isLt
      have h3 := s3.isLt
      have h4 := s4.isLt
      have h5 := s5.isLt
      have h6 := s6.isLt
      have h7 := s7.isLt
      have h8 := s8.isLt
      have g1 := t1.isLt
      have g2 := t2.isLt
      have g3 := t3.isLt
      have g4 := t4.isLt
      have g5 := t5.isLt
      have g6 := t6.isLt
      have g7 := t7.isLt
      have g8 := t8.isLt
      have : s1.val = t1.val ∧ s2.val = t2.val ∧ s3.val = t3.val ∧
          s4.val = t4.val ∧ s5.val = t5.val ∧ s6.val = t6.val ∧
          s7.val = t7.val ∧ s8.val = t8.val := by
        omega
      obtain ⟨e1, e2, e3, e4, e5, e6, e7, e8⟩ := this
      rw [Fin.ext e1, Fin.ext e2, Fin.ext e3, Fin.ext e4, Fin.ext e5,
        Fin.ext e6, Fin.ext e7, Fin.ext e8]

theorem btreeInsert_mem {x y : IpAddr} : ∀ {s : List IpAddr},
    y ∈ btreeInsert x s ↔ y = x ∨ y ∈ s := by
  intro s
  induction s with
  | nil => simp [btreeInsert]
  | cons z zs ih =>
    simp only [btreeInsert]
    by_cases h1 : x.key < z.key
    · rw [if_pos h1]
      simp [List.mem_cons]
    · by_cases h2 : x.key = z.key
      · have hxz : x = z := IpAddr.key_inj h2
        rw [if_neg h1, if_pos h2]
        subst hxz
        simp only [List.mem_cons]
        tauto
      · rw [if_neg h1, if_neg h2]
        simp only [List.mem_cons, ih]
        tauto

theorem btreeInsert_sorted {x : IpAddr} : ∀ {s : List IpAddr},
    s.Pairwise (fun a b => a.key < b.key) →
    (btreeInsert x s).Pairwise fun a b => a.key < b.key := by
  intro s
  induction s with
  | nil => intro _; simp [btreeInsert]
  | cons z zs ih =>
    intro hs
    rw [List.pairwise_cons] at hs
    obtain ⟨hz, hzs⟩ := hs
    simp only [btreeInsert]
    by_cases h1 : x.key < z.key
    · rw [if_pos h1]
      refine List.Pairwise.cons ?_ (List.Pairwise.cons hz hzs)
      intro w hw
      rcases List.mem_cons.mp hw with rfl | hw
      · exact h1
      · exact Nat.lt_trans h1 (hz w hw)
    · by_cases h2 : x.key = z.key
      · rw [if_neg h1, if_pos h2]
        exact List.Pairwise.cons hz hzs
      · rw [if_neg h1, if_neg h2]
        refine List.Pairwise.cons ?_ (ih hzs)
        intro w hw
        rcases btreeInsert_mem.mp hw with rfl | hw
        · omega
        · exact hz w hw

theorem foldl_btreeInsert_sorted (addrs : List IpAddr) :
    ∀ s : List IpAddr, s.Pairwise (fun a b => a.key < b.key) →
      (addrs.foldl (fun s a => btreeInsert a s) s).Pairwise
        fun a b => a.key < b.key := by
  induction addrs with
  | nil => intro s hs; exact hs
  | cons a as ih => intro s hs; exact ih (btreeInsert a s) (btreeInsert_sorted hs)

theorem foldl_btreeInsert_mem (addrs : List IpAddr) :
    ∀ (s : List IpAddr) (y : IpAddr),
      y ∈ addrs.foldl (fun s a => btreeInsert a s) s ↔ y ∈ addrs ∨ y ∈ s := by
  induction addrs with
  | nil => intro s y; simp
  | cons a as ih =>
    intro s y
    rw [List.foldl_cons, ih (btreeInsert a s) y, btreeInsert_mem]
    simp only [List.mem_cons]
    tauto

theorem sorted_eq_of_mem_iff : ∀ {s t : List IpAddr},
    s.Pairwise (fun a b => a.key < b.key) →
    t.Pairwise (fun a b => a.key < b.key) →
    (∀ y, y ∈ s ↔ y ∈ t) → s = t := by
  intro s
  induction s with
  | nil =>
    intro t _ _ hmem
    cases t with
    | nil => rfl
    | cons b bs => exact absurd ((hmem b).mpr (List.mem_cons_self b bs)) (by simp)
  | cons a as ih =>
    intro t hs ht hmem
    cases t with
    | nil => exact absurd ((hmem a).mp (List.mem_cons_self a as)) (by simp)
    | cons b bs =>
      rw [List.pairwise_cons] at hs ht
      obtain ⟨ha, has⟩ := hs
      obtain ⟨hb, hbs⟩ := ht
      have hab : a = b := by
        rcases List.mem_cons.mp ((hmem a).mp (List.mem_cons_self a as)) with he | hin
        · exact he
        · rcases List.mem_cons.mp ((hmem b).mpr (List.mem_cons_self b bs)) with he | hin2
          · exact he.symm
          · have h1 := hb a hin
            have h2 := ha b hin2
            omega
      subst hab
      have htail : ∀ y, y ∈ as ↔ y ∈ bs := by
        intro y
        constructor
        · intro hy
          rcases List.mem_cons.mp ((hmem y).mp (List.mem_cons_of_mem a hy)) with he | hin
          · subst he
            exact absurd (ha y hy) (by omega)
          · exact hin
        · intro hy
          rcases List.mem_cons.mp ((hmem y).mpr (List.mem_cons_of_mem a hy)) with he | hin
          · subst he
            exact absurd (hb y hy) (by omega)
          · exact hin
      rw [ih has hbs htail]

/-- C6: a successful `resolve_target` returns a non-empty, duplicate-free
list, sorted by the canonical `IpAddr` order — and the list depends only on
the set of addresses the lookup produced, not on their order; a lookup that
succeeds with zero addresses is turned into the `no ip addresses found`
resolution error instead of an empty list. -/
theorem claim_C6_resolver_canonical (target : String)
    (addrs addrs2 ips : List IpAddr) :
    (resolve_target target (some addrs) = .ok ips →
      ips ≠ [] ∧ ips.Nodup ∧ ips.Pairwise (fun a b => a.key < b.key) ∧
      (addrs.Perm addrs2 → resolve_target target (some addrs2) = .ok ips)) ∧
    resolve_target target (some []) =
      .error ("no ip addresses found for target '" ++ target ++ "'") := by
  constructor
  · intro hok
    rw [resolve_target] at hok
    by_cases hemp : (addrs.foldl (fun s a => btreeInsert a s) []).isEmpty = true
    · rw [if_pos hemp] at hok
      exact absurd hok (by simp)
    · rw [if_neg hemp] at hok
      have hips : addrs.foldl (fun s a => btreeInsert a s) [] = ips :=
        Except.ok.inj hok
      have hsorted : ips.Pairwise fun a b => a.key < b.key := by
        rw [← hips]
        exact foldl_btreeInsert_sorted addrs [] List.Pairwise.nil
      refine ⟨?_, ?_, hsorted, ?_⟩
      · rw [← hips]
        intro he
        rw [he] at hemp
        exact hemp rfl
      · exact List.Pairwise.imp (fun hab he => by subst he; omega) hsorted
      · intro hperm
        rw [resolve_target]
        have heq : addrs2.foldl (fun s a => btreeInsert a s) [] =
            addrs.foldl (fun s a => btreeInsert a s) [] := by
          refine sorted_eq_of_mem_iff
            (foldl_btreeInsert_sorted addrs2 [] List.Pairwise.nil)
            (foldl_btreeInsert_sorted addrs [] List.Pairwise.nil) ?_
          intro y
          rw [foldl_btreeInsert_mem, foldl_btreeInsert_mem]
          have := hperm.mem_iff (a := y)
          tauto
        rw [heq, hips, if_neg (by rw [hips] at hemp; exact hemp)]
  · rfl

/-- C6 witness: a two-address lookup, presented in both orders, resolves to
the same canonically sorted duplicate-free list; the empty lookup errors. -/
theorem claim_C6_resolver_canonical_witness :
    ([IpAddr.v4 1 0 0 1, IpAddr.v4 2 0 0 1] : List IpAddr) ≠ [] ∧
    ([IpAddr.v4 1 0 0 1, IpAddr.v4 2 0 0 1] : List IpAddr).Nodup ∧
    ([IpAddr.v4 1 0 0 1, IpAddr.v4 2 0 0 1] : List IpAddr).Pairwise
      (fun a b => a.key < b.key) ∧
    resolve_target "host" (some [IpAddr.v4 1 0 0 1, IpAddr.v4 2 0 0 1]) =
      .ok [IpAddr.v4 1 0 0 1, IpAddr.v4 2 0 0 1] ∧
    resolve_target "host" (some []) =
      .error ("no ip addresses found for target 'host'") := by
  have h := claim_C6_resolver_canonical "host"
    [IpAddr.v4 2 0 0 1, IpAddr.v4 1 0 0 1]
    [IpAddr.v4 1 0 0 1, IpAddr.v4 2 0 0 1]
    [IpAddr.v4 1 0 0 1, IpAddr.v4 2 0 0 1]
  have h1 := h.1 rfl
  exact ⟨h1.1, h1.2.1, h1.2.2.1, h1.2.2.2 (List.Perm.swap _ _ _), h.2⟩

end PortScanner
